import Mathlib

/-!
# Binary-File-Parser: the object graph of `bfp::File` and the befa event pipeline

## `bfp` : shallow embedding of `src/bfp/file.cpp`

* A non-null `asection *` is the address of the library object it points at (`Nat`);
  a nullable one is an `Option Nat`.
* The `bfd` record holds what the binary-introspection library answers for one opened
  binary: the `sections` linked list (in `next` order), the value returned by
  `bfd_get_symtab_upper_bound`, the value returned by `bfd_canonicalize_symtab`, and the
  entries that call writes to `symbol_table`.
* The four standard section pointers of the library are a parameter, `bfd_std_sections`.
* A `std::vector<Section>::iterator` is its offset from `begin()`; `end()` is `size()`.
* A constructor that throws is `Except.error`; one that returns is `Except.ok` with the
  constructed object.
* `Section`, `Symbol` and the macros `BFP_ASSERT` and `RAISE` are used by `File::File` but
  defined in files that are not part of the sources; they are modelled from the
  specification and marked so.

## `befa` : the event bus and the basic-block segmentation

`src/include/befa.hpp` only declares the `Subject` members of `ExecutableFile`; the
`Subject` class and the segmentation that feeds `basic_block_subject` live in files that
are not part of the sources. Both are modelled from sections 4.3 and 4.4 of the
specification and marked so.
-/

namespace bfp

/-- One entry of the raw symbol table (`asymbol`): name, value, flags and the `section`
pointer, which may be null. -/
structure asymbol where
  name : String
  value : Nat
  flags : Nat
  sec : Option Nat
deriving DecidableEq

/-- The answers of the binary-introspection library for one opened binary (`bfd`). -/
structure bfd where
  /-- The `sections` list, followed through `next` until `NULL`. -/
  sections : List Nat
  /-- Result of `bfd_get_symtab_upper_bound`. -/
  symtab_upper_bound : Int
  /-- Result of `bfd_canonicalize_symtab`. -/
  symtab_count : Int
  /-- The entries `bfd_canonicalize_symtab` writes to the table it is handed. -/
  symtab : List asymbol
deriving DecidableEq

/-- The library's four standard sections: `bfd_com_section_ptr`, `bfd_und_section_ptr`,
`bfd_abs_section_ptr` and `bfd_ind_section_ptr`. -/
structure bfd_std_sections where
  com : Nat
  und : Nat
  abs : Nat
  ind : Nat
deriving DecidableEq

/-- What construction can throw. -/
inductive Exception where
  /-- Thrown by `BFP_ASSERT()`. -/
  | Assert
  /-- Thrown by `RAISE(Exception::Parser::WrongFormat)`. -/
  | WrongFormat
  /-- A read of `symbol_table[i]` past the entries the library wrote, which the source
  does not define. -/
  | ReadPastTable
deriving DecidableEq

/-- A `Symbol`: the raw entry it wraps and `_section`, the iterator to its section. -/
structure Symbol where
  _sym : asymbol
  _section : Nat
deriving DecidableEq

/-- A `Section`: the raw section it wraps and the symbols pushed to it. -/
structure Section where
  _sec : Nat
  _symbols : List Symbol
deriving DecidableEq

/-- Modelled from the spec: the constructor `Section(asection *)` that `File::File` calls
is not in the sources; a new Section wraps the raw section and has no symbol bound yet. -/
def Section.ctor (_sec : Nat) : Section :=
  { _sec := _sec, _symbols := [] }

/-- Modelled from the spec: `Section::operator==(const asection *)` is declared in
`section.hpp` and defined elsewhere; sections are matched "by identity lookup", that is
by comparing the wrapped pointer. -/
def Section.eq_ptr (s : Section) (_ptr : Nat) : Bool :=
  s._sec == _ptr

/-- Modelled from the spec: `Section::push_back(Symbol)` is not in the sources; it
"appends to the Section's symbol sequence". -/
def Section.push_back (s : Section) (_sym : Symbol) : Section :=
  { s with _symbols := s._symbols ++ [_sym] }

/-- Modelled from the spec: the constructor `Symbol(asymbol *)` is not in the sources; it wraps
the raw entry. Its `_section` is assigned by the caller right after; until then it is
left at offset 0. -/
def Symbol.ctor (_sym : asymbol) : Symbol :=
  { _sym := _sym, _section := 0 }

/-- The `File` object: `_fd`, `_path`, `_target`, the `_sections` vector and
`symbol_table` (`none` while it has not been assigned). -/
structure File where
  _fd : bfd
  _path : String
  _target : String
  _sections : List Section
  symbol_table : Option (List asymbol)
deriving DecidableEq

/-- The function `File::push_back`: `_sections.push_back(_sec)`. -/
def File.push_back (f : File) (_sec : Section) : File :=
  { f with _sections := f._sections ++ [_sec] }

/-- The function `File::size`. -/
def File.size (f : File) : Nat :=
  f._sections.length

/-- The function `File::begin`, as an offset. -/
def File.begin (_ : File) : Nat := 0

/-- The function `File::end`, as an offset from `begin()`. -/
def File.end_ (f : File) : Nat :=
  f._sections.length

/-- The function `File::get_path`. -/
def File.get_path (f : File) : String :=
  f._path

/-- The function `File::get_target`. -/
def File.get_target (f : File) : String :=
  f._target

/-- What the checked accessor of `std::vector` throws: `std::out_of_range`. -/
inductive std_exception where
  | out_of_range
deriving DecidableEq

/-- The function `File::operator[]`: `_sections[n]`. The unchecked subscript of the vector is
defined only for `n < size()`; `none` stands for the read the source does not define. -/
def File.operator_index (f : File) (n : Nat) : Option Section :=
  f._sections[n]?

/-- The function `File::front`: `_sections.front()`, which is defined only on a vector that
is not empty; `none` stands for the call the source does not define. -/
def File.front (f : File) : Option Section :=
  f._sections.head?

/-- The function `File::back`: `_sections.back()`, which is defined only on a vector that
is not empty; `none` stands for the call the source does not define. -/
def File.back (f : File) : Option Section :=
  f._sections.getLast?

/-- The function `File::at`: `_sections.at(n)`, the checked access of the vector, which
throws `std::out_of_range` when `n >= size()`. -/
def File.at_ (f : File) (n : Nat) : Except std_exception Section :=
  if h : n < f._sections.length then
    .ok (f._sections.get ⟨n, h⟩)
  else
    .error std_exception.out_of_range

/-- The function `File::empty`: `_sections.empty()`. -/
def File.empty (f : File) : Bool :=
  f._sections.isEmpty

/-- The algorithm `std::find(first, last, value)` over a vector of sections, returning the
offset of the first element equal to `value`, or the length (the `last` iterator) when
there is none. -/
def find : List Section → Nat → Nat
  | [], _ => 0
  | s :: rest, _ptr => if s.eq_ptr _ptr then 0 else find rest _ptr + 1

/-- The call `_sec->push_back(_sym)` through an iterator into the vector: the element at
that offset gets the symbol appended, every other element is untouched. -/
def push_back_at : List Section → Nat → Symbol → List Section
  | [], _, _ => []
  | s :: rest, 0, _sym => s.push_back _sym :: rest
  | s :: rest, k + 1, _sym => s :: push_back_at rest k _sym

/-- Modelled from the spec: the macro `BFP_ASSERT()` is not in the sources; a negative table
size reported by the library is a fatal construction failure, so it throws. -/
def BFP_ASSERT : Except Exception File :=
  .error Exception.Assert

/-- Modelled from the spec: the macro `RAISE` is not in the sources; an unmatched symbol
makes construction "fail with a format error", so it throws its argument. -/
def RAISE (e : Exception) : Except Exception File :=
  .error e

/-- The library call `bfd_get_symtab_upper_bound`. -/
def bfd_get_symtab_upper_bound (fd : bfd) : Int :=
  fd.symtab_upper_bound

/-- The library call `bfd_canonicalize_symtab`: the table it fills and the count it returns. -/
def bfd_canonicalize_symtab (fd : bfd) : List asymbol × Int :=
  (fd.symtab, fd.symtab_count)

/-- The iterator `_sec` that the symbol loop computes for one entry (file.cpp lines
57-59): `end()`, replaced by `find(begin(), end(), entry->section)` when the entry's
section pointer is not null. -/
def section_of (_sections : List Section) (entry : asymbol) : Nat :=
  match entry.sec with
  | some p => find _sections p
  | none => _sections.length

/-- The body of the symbol loop of `File::File` for one entry `symbol_table[i]`
(file.cpp lines 57-69). -/
def bind_symbol (f : File) (entry : asymbol) : Except Exception File :=
  let _sec := section_of f._sections entry
  if _sec = f.end_ then
    RAISE Exception.WrongFormat
  else
    let _sym := { Symbol.ctor entry with _section := _sec }
    .ok { f with _sections := push_back_at f._sections _sec _sym }

/-- The loop `for (i = 0; i < number_of_symbols; ++i)` of `File::File`, entered at index `i`
with `remaining = number_of_symbols - i` iterations to go. -/
def symbol_loop (table : List asymbol) : Nat → Nat → File → Except Exception File
  | 0, _, f => .ok f
  | remaining + 1, i, f =>
    match table[i]? with
    | none => .error Exception.ReadPastTable
    | some entry =>
      match bind_symbol f entry with
      | .error e => .error e
      | .ok f1 => symbol_loop table remaining (i + 1) f1

/-- The first part of `File::File` (file.cpp lines 17-37): the member initialisers, the
four pseudo-sections, then one Section per raw section in `next` order. -/
def File.seed (std : bfd_std_sections) (fd : bfd) (path target : String) : File :=
  let f : File :=
    { _fd := fd, _path := path, _target := target, _sections := [], symbol_table := none }
  let f := f.push_back (Section.ctor std.com)
  let f := f.push_back (Section.ctor std.und)
  let f := f.push_back (Section.ctor std.abs)
  let f := f.push_back (Section.ctor std.ind)
  fd.sections.foldl (fun g _sec => g.push_back (Section.ctor _sec)) f

/-- The constructor `File::File(bfd *fd, const char *path, const char *target)`. -/
def File.ctor (std : bfd_std_sections) (fd : bfd) (path target : String) :
    Except Exception File :=
  let f := File.seed std fd path target
  let storage_needed := bfd_get_symtab_upper_bound fd
  if storage_needed < 0 then
    BFP_ASSERT
  else if storage_needed = 0 then
    .ok f
  else
    let (table, number_of_symbols) := bfd_canonicalize_symtab fd
    let f := { f with symbol_table := some table }
    if number_of_symbols < 0 then
      BFP_ASSERT
    else
      symbol_loop table number_of_symbols.toNat 0 f

/-- Number of Symbols held by all sections of a sequence together. -/
def total_symbols (secs : List Section) : Nat :=
  (secs.map (fun S => S._symbols.length)).sum

/-- The library's contract on the symbol table of one binary: the count returned by
`bfd_canonicalize_symtab` is the number of entries it wrote, and the upper bound of
`bfd_get_symtab_upper_bound` is not below that number. -/
def bfd.consistent (fd : bfd) : Prop :=
  fd.symtab_count = fd.symtab.length ∧ (fd.symtab.length : Int) ≤ fd.symtab_upper_bound

instance (fd : bfd) : Decidable fd.consistent := by
  unfold bfd.consistent
  infer_instance

def example_std : bfd_std_sections := { com := 1, und := 2, abs := 3, ind := 4 }

def example_sym (name : String) (p : Option Nat) : asymbol :=
  { name := name, value := 0, flags := 0, sec := p }

def example_fd : bfd :=
  { sections := [10, 11], symtab_upper_bound := 32, symtab_count := 3,
    symtab := [example_sym "main" (some 11), example_sym "ext" (some 2),
               example_sym "helper" (some 11)] }

def example_file : File :=
  { _fd := example_fd, _path := "a.out", _target := "elf64-x86-64",
    _sections :=
      [{ _sec := 1, _symbols := [] },
       { _sec := 2, _symbols := [{ _sym := example_sym "ext" (some 2), _section := 1 }] },
       { _sec := 3, _symbols := [] },
       { _sec := 4, _symbols := [] },
       { _sec := 10, _symbols := [] },
       { _sec := 11,
         _symbols := [{ _sym := example_sym "main" (some 11), _section := 5 },
                      { _sym := example_sym "helper" (some 11), _section := 5 }] }],
    symbol_table := some example_fd.symtab }

def example_helper : Symbol :=
  { _sym := example_sym "helper" (some 11), _section := 5 }

def example_text : Section :=
  { _sec := 11,
    _symbols := [{ _sym := example_sym "main" (some 11), _section := 5 }, example_helper] }

def example_fd_unmatched : bfd :=
  { sections := [10, 11], symtab_upper_bound := 24, symtab_count := 2,
    symtab := [example_sym "main" (some 11), example_sym "stray" (some 99)] }

def example_fd_negative_bound : bfd :=
  { sections := [10, 11], symtab_upper_bound := -1, symtab_count := 0, symtab := [] }

def example_fd_no_storage : bfd :=
  { sections := [10, 11], symtab_upper_bound := 0, symtab_count := 0, symtab := [] }

def example_fd_no_sections : bfd :=
  { sections := [], symtab_upper_bound := 16, symtab_count := 1,
    symtab := [example_sym "ext" (some 2)] }

def example_file_no_sections : File :=
  { _fd := example_fd_no_sections, _path := "a.out", _target := "elf64-x86-64",
    _sections :=
      [{ _sec := 1, _symbols := [] },
       { _sec := 2, _symbols := [{ _sym := example_sym "ext" (some 2), _section := 1 }] },
       { _sec := 3, _symbols := [] },
       { _sec := 4, _symbols := [] }],
    symbol_table := some example_fd_no_sections.symtab }

end bfp

namespace befa

/-- Modelled from the spec: the decoded `Instruction` of the instruction stream (its class is
in `befa/assembly/instruction.hpp`, which is not in the sources): address, decoded
length, owning symbol, and whether it is a control-transfer instruction (branch, call
or return). -/
structure Instruction where
  address : Nat
  length : Nat
  symbol : Nat
  control_transfer : Bool
deriving DecidableEq

/-- Modelled from the spec: a handler subscribed to an event bus (the `Subject` and
`Observable` classes are in `befa/utils/observer.hpp`, which is not in the sources). Run on
a published value and the consumer's state, it gives the new state and the tokens it
unsubscribes while running. -/
abbrev Handler (σ α : Type) := α → σ → σ × List Nat

/-- Modelled from the spec: the event bus `Subject` (section 4.3; the class is not in the
sources): the registered handlers with their tokens, in subscription order, and the next
token to hand out. -/
structure Subject (σ α : Type) where
  handlers : List (Nat × Handler σ α)
  next_token : Nat

/-- Modelled from the spec: a bus with no handler (the class is not in the sources). -/
def Subject.empty (σ α : Type) : Subject σ α :=
  { handlers := [], next_token := 0 }

/-- Modelled from the spec: `subscribe(handler) -> token` (the class is not in the sources):
the handler is registered after those already there. -/
def Subject.subscribe {σ α : Type} (s : Subject σ α) (h : Handler σ α) : Subject σ α × Nat :=
  ({ handlers := s.handlers ++ [(s.next_token, h)], next_token := s.next_token + 1 },
    s.next_token)

/-- Modelled from the spec: `unsubscribe(token)` "removes a handler" (the class is not in the
sources). -/
def Subject.unsubscribe {σ α : Type} (s : Subject σ α) (token : Nat) : Subject σ α :=
  { s with handlers := s.handlers.filter (fun h => h.1 != token) }

/-- Modelled from the spec: what one `publish` has done when it returns (the class is not in
the sources): the bus and the consumer state it leaves, and the invocations it made, oldest
first, each with the token of the handler and the value it was handed. -/
structure Published (σ α : Type) where
  subject : Subject σ α
  state : σ
  invoked : List (Nat × α)

/-- Modelled from the spec: the dispatch loop of `publish` over the handlers that were
registered when `publish` was called (the class is not in the sources). A handler that
unsubscribes while running changes the bus for the next publish, not this loop. -/
def Subject.dispatch {σ α : Type} (value : α) :
    List (Nat × Handler σ α) → Published σ α → Published σ α
  | [], acc => acc
  | (token, h) :: rest, acc =>
    let (st, gone) := h value acc.state
    Subject.dispatch value rest
      { subject := gone.foldl Subject.unsubscribe acc.subject,
        state := st,
        invoked := acc.invoked ++ [(token, value)] }

/-- Modelled from the spec: `publish(value)` "invokes every currently-registered handler
once, in subscription order, before `publish` returns" (the class is not in the sources). -/
def Subject.publish {σ α : Type} (s : Subject σ α) (value : α) (st : σ) : Published σ α :=
  Subject.dispatch value s.handlers { subject := s, state := st, invoked := [] }

/-- Subscribing the handlers of a list, first to last. -/
def Subject.subscribe_all {σ α : Type} (s : Subject σ α) (hs : List (Handler σ α)) :
    Subject σ α :=
  hs.foldl (fun b h => (b.subscribe h).1) s

/-- Modelled from the spec: a `BasicBlock` as emitted on the basic-block stream (section 3;
`befa/assembly/basic_block.hpp` is not in the sources): its owning symbol and its
instructions in order. -/
structure BasicBlock where
  symbol : Nat
  instructions : List Instruction
deriving DecidableEq

/-- Modelled from the spec: the state of the basic-block segmentation (section 4.4; its code
is not in the sources): the instructions of the block being accumulated, and the blocks
published so far on the basic-block stream. -/
structure Aggregator where
  accumulating : List Instruction
  emitted : List BasicBlock
deriving DecidableEq

/-- Modelled from the spec: the initial state, "`ACCUMULATING` with an empty instruction
sequence" (the segmentation code is not in the sources). -/
def Aggregator.init : Aggregator :=
  { accumulating := [], emitted := [] }

/-- Modelled from the spec: the `EMIT` step (the segmentation code is not in the sources):
the accumulated block is published, owning its instructions, and accumulation restarts
empty. Nothing is published when nothing was accumulated. -/
def Aggregator.emit (a : Aggregator) : Aggregator :=
  match a.accumulating with
  | [] => a
  | i :: rest =>
    { accumulating := [],
      emitted := a.emitted ++ [{ symbol := i.symbol, instructions := i :: rest }] }

/-- Modelled from the spec: whether an instruction continues the block that ends in `prev`
(the segmentation code is not in the sources): same symbol, and its address is the
previous address plus the previous length (no gap, no overlap). -/
def continues (prev next : Instruction) : Bool :=
  next.symbol == prev.symbol && next.address == prev.address + prev.length

/-- Modelled from the spec: the handler the segmentation subscribes to the instruction
stream (section 4.4; its code is not in the sources). A new symbol boundary or a
non-contiguous address forces emission of the current block; the instruction is then
accumulated; a control-transfer instruction ends its block. -/
def Aggregator.on_instruction (a : Aggregator) (i : Instruction) : Aggregator :=
  let a1 :=
    match a.accumulating.getLast? with
    | none => a
    | some prev => if continues prev i then a else a.emit
  let a2 := { a1 with accumulating := a1.accumulating ++ [i] }
  if i.control_transfer then a2.emit else a2

/-- Modelled from the spec: `runBlockSegmentation` over a whole instruction stream (its code
is not in the sources): every instruction goes through the handler, and the block still
accumulating after the last instruction is emitted. The result is what was published on
the basic-block stream, oldest first. -/
def basic_block_stream (stream : List Instruction) : List BasicBlock :=
  ((stream.foldl Aggregator.on_instruction Aggregator.init).emit).emitted

/-- Address-contiguity of a sequence of instructions: each one starts where the previous
one ends. -/
def address_contiguous (is : List Instruction) : Prop :=
  List.Chain' (fun i j => j.address = i.address + i.length) is

instance (is : List Instruction) : Decidable (address_contiguous is) := by
  unfold address_contiguous
  infer_instance

/-- The invariant of the segmentation: the block being accumulated and every block already
published are address-contiguous. -/
def Aggregator.ok (a : Aggregator) : Prop :=
  address_contiguous a.accumulating ∧ ∀ b ∈ a.emitted, address_contiguous b.instructions

def example_stream : List Instruction :=
  [{ address := 0, length := 2, symbol := 1, control_transfer := false },
   { address := 2, length := 3, symbol := 1, control_transfer := true },
   { address := 5, length := 1, symbol := 1, control_transfer := false },
   { address := 6, length := 1, symbol := 1, control_transfer := false }]

def example_block : BasicBlock :=
  { symbol := 1,
    instructions :=
      [{ address := 5, length := 1, symbol := 1, control_transfer := false },
       { address := 6, length := 1, symbol := 1, control_transfer := false }] }

end befa

namespace bfp

/-! ## Lemmas on the vector operations -/

theorem find_le (secs : List Section) (p : Nat) : find secs p ≤ secs.length := by
  induction secs with
  | nil => simp [find]
  | cons s rest ih =>
    simp only [find]
    split <;> simp [ih]

theorem find_congr {secs secs1 : List Section}
    (h : secs.map Section._sec = secs1.map Section._sec) (p : Nat) :
    find secs p = find secs1 p := by
  induction secs generalizing secs1 with
  | nil =>
    cases secs1 with
    | nil => rfl
    | cons t rest1 => simp at h
  | cons s rest ih =>
    cases secs1 with
    | nil => simp at h
    | cons t rest1 =>
      simp only [List.map_cons, List.cons.injEq] at h
      simp only [find, Section.eq_ptr, h.1, ih h.2]

theorem find_spec (secs : List Section) (p k : Nat) (hk : find secs p = k)
    (hlt : k < secs.length) :
    (∃ S, secs[k]? = some S ∧ S._sec = p) ∧
      ∀ j T, j < k → secs[j]? = some T → T._sec ≠ p := by
  induction secs generalizing k with
  | nil => simp at hlt
  | cons s rest ih =>
    simp only [find] at hk
    by_cases hs : s.eq_ptr p = true
    · simp only [hs, if_true] at hk
      subst hk
      refine ⟨⟨s, by simp, ?_⟩, ?_⟩
      · simpa [Section.eq_ptr] using hs
      · intro j T hj; omega
    · simp only [hs] at hk
      cases k with
      | zero => simp at hk
      | succ k =>
        have hk1 : find rest p = k := by simpa using hk
        have hlt1 : k < rest.length := by simpa using hlt
        obtain ⟨⟨S, hS, hSp⟩, hmin⟩ := ih k hk1 hlt1
        refine ⟨⟨S, by simpa using hS, hSp⟩, ?_⟩
        intro j T hj hT
        cases j with
        | zero =>
          simp only [List.getElem?_cons_zero, Option.some.injEq] at hT
          subst hT
          simpa [Section.eq_ptr] using hs
        | succ j =>
          exact hmin j T (by omega) (by simpa using hT)

theorem find_eq_length_iff (secs : List Section) (p : Nat) :
    find secs p = secs.length ↔ ∀ S ∈ secs, S._sec ≠ p := by
  induction secs with
  | nil => simp [find]
  | cons s rest ih =>
    simp only [find, Section.eq_ptr, List.length_cons, List.mem_cons, forall_eq_or_imp]
    by_cases hs : s._sec = p
    · simp [hs]
    · simp [hs, ih]

theorem push_back_at_length (secs : List Section) (k : Nat) (y : Symbol) :
    (push_back_at secs k y).length = secs.length := by
  induction secs generalizing k with
  | nil => simp [push_back_at]
  | cons s rest ih =>
    cases k with
    | zero => simp [push_back_at]
    | succ k => simp [push_back_at, ih]

theorem push_back_at_ids (secs : List Section) (k : Nat) (y : Symbol) :
    (push_back_at secs k y).map Section._sec = secs.map Section._sec := by
  induction secs generalizing k with
  | nil => simp [push_back_at]
  | cons s rest ih =>
    cases k with
    | zero => simp [push_back_at, Section.push_back]
    | succ k => simp [push_back_at, ih]

theorem push_back_at_getElem? (secs : List Section) (k j : Nat) (y : Symbol) :
    (push_back_at secs k y)[j]? =
      (secs[j]?).map (fun S => if j = k then S.push_back y else S) := by
  induction secs generalizing k j with
  | nil => simp [push_back_at]
  | cons s rest ih =>
    cases k with
    | zero =>
      cases j with
      | zero => simp [push_back_at]
      | succ j => simp [push_back_at]
    | succ k =>
      cases j with
      | zero => simp [push_back_at]
      | succ j => simp [push_back_at, ih]

/-! ## Lemmas on the first part of the constructor -/

theorem foldl_push_back_sections (l : List Nat) (f : File) :
    (l.foldl (fun g _sec => g.push_back (Section.ctor _sec)) f)._sections =
      f._sections ++ l.map Section.ctor := by
  induction l generalizing f with
  | nil => simp
  | cons a l ih =>
    rw [List.foldl_cons, ih]
    simp [File.push_back]

theorem foldl_push_back_frame (l : List Nat) (f : File) :
    (l.foldl (fun g _sec => g.push_back (Section.ctor _sec)) f)._path = f._path ∧
      (l.foldl (fun g _sec => g.push_back (Section.ctor _sec)) f)._target = f._target ∧
      (l.foldl (fun g _sec => g.push_back (Section.ctor _sec)) f).symbol_table =
        f.symbol_table := by
  induction l generalizing f with
  | nil => simp
  | cons a l ih => simpa [File.push_back] using ih (f.push_back (Section.ctor a))

theorem seed_sections (std : bfd_std_sections) (fd : bfd) (path target : String) :
    (File.seed std fd path target)._sections =
      Section.ctor std.com :: Section.ctor std.und :: Section.ctor std.abs ::
        Section.ctor std.ind :: fd.sections.map Section.ctor := by
  simp only [File.seed]
  rw [foldl_push_back_sections]
  simp [File.push_back]

theorem seed_frame (std : bfd_std_sections) (fd : bfd) (path target : String) :
    (File.seed std fd path target)._path = path ∧
      (File.seed std fd path target)._target = target := by
  simp only [File.seed]
  refine ⟨?_, ?_⟩
  · rw [(foldl_push_back_frame _ _).1]; rfl
  · rw [(foldl_push_back_frame _ _).2.1]; rfl

/-! ## Lemmas on the symbol loop -/

theorem section_of_congr {secs secs1 : List Section}
    (h : secs.map Section._sec = secs1.map Section._sec) (e : asymbol) :
    section_of secs e = section_of secs1 e := by
  have hlen : secs.length = secs1.length := by
    simpa using congrArg List.length h
  unfold section_of
  cases e.sec with
  | none => simpa using hlen
  | some p => simpa using find_congr h p

theorem section_of_le (secs : List Section) (e : asymbol) :
    section_of secs e ≤ secs.length := by
  unfold section_of
  cases e.sec with
  | none => simp
  | some p => simpa using find_le secs p

/-- An entry is unmatched exactly when its section pointer is null or differs from every
section of the sequence. -/
theorem section_of_eq_length_iff (secs : List Section) (e : asymbol) :
    section_of secs e = secs.length ↔
      (e.sec = none ∨ ∀ S ∈ secs, e.sec ≠ some S._sec) := by
  unfold section_of
  cases he : e.sec with
  | none => simp
  | some p =>
    simp only [find_eq_length_iff, false_or, ne_eq, Option.some.injEq, reduceCtorEq]
    constructor
    · intro h S hS hp; exact h S hS hp.symm
    · intro h S hS hp; exact h S hS hp.symm

theorem bind_symbol_ok {f f1 : File} {e : asymbol} (h : bind_symbol f e = .ok f1) :
    section_of f._sections e < f._sections.length ∧
      f1 =
        { f with
          _sections := push_back_at f._sections (section_of f._sections e)
            { _sym := e, _section := section_of f._sections e } } := by
  unfold bind_symbol at h
  simp only [File.end_, RAISE, Symbol.ctor] at h
  split at h
  · cases h
  · rename_i hne
    have hle := section_of_le f._sections e
    refine ⟨by omega, ?_⟩
    cases h
    rfl

theorem bind_symbol_error {f : File} {e : asymbol}
    (h : section_of f._sections e = f._sections.length) :
    bind_symbol f e = .error Exception.WrongFormat := by
  unfold bind_symbol
  simp [File.end_, RAISE, h]

theorem bind_symbol_of_lt {f : File} {e : asymbol}
    (h : section_of f._sections e ≠ f._sections.length) :
    bind_symbol f e = .ok
      { f with
        _sections := push_back_at f._sections (section_of f._sections e)
          { _sym := e, _section := section_of f._sections e } } := by
  unfold bind_symbol
  simp [File.end_, Symbol.ctor, h]

theorem drop_take_succ {α : Type} (l : List α) (i n : Nat) (e : α) (h : l[i]? = some e) :
    (l.drop i).take (n + 1) = e :: (l.drop (i + 1)).take n := by
  obtain ⟨hi, he⟩ := List.getElem?_eq_some.mp h
  rw [List.drop_eq_getElem_cons hi, List.take_succ_cons, he]

/-- What a run of the symbol loop that returns has done: it left path, target and the identity of every section alone, and appended to each section, in
table order, one Symbol per entry of the run whose iterator is that section. -/
theorem symbol_loop_ok (table : List asymbol) :
    ∀ (n i : Nat) (f f1 : File), symbol_loop table n i f = .ok f1 →
      f1._path = f._path ∧ f1._target = f._target ∧
      f1._sections.map Section._sec = f._sections.map Section._sec ∧
      ∀ k, (f1._sections[k]?).map Section._symbols =
        (f._sections[k]?).map (fun S => S._symbols ++
          (((table.drop i).take n).filter (fun e => section_of f._sections e == k)).map
            (fun e => ({ _sym := e, _section := k } : Symbol))) := by
  intro n
  induction n with
  | zero =>
    intro i f f1 h
    simp only [symbol_loop, Except.ok.injEq] at h
    subst h
    simp
  | succ n ih =>
    intro i f f1 h
    simp only [symbol_loop] at h
    cases hi : table[i]? with
    | none => simp [hi] at h
    | some e =>
      simp only [hi] at h
      cases hb : bind_symbol f e with
      | error x => simp [hb] at h
      | ok f2 =>
        simp only [hb] at h
        obtain ⟨hlt, hf2⟩ := bind_symbol_ok hb
        obtain ⟨hp, ht, hids, hsym⟩ := ih (i + 1) f2 f1 h
        have hids2 : f2._sections.map Section._sec = f._sections.map Section._sec := by
          rw [hf2]; exact push_back_at_ids _ _ _
        have hso : ∀ a, section_of f2._sections a = section_of f._sections a :=
          fun a => section_of_congr hids2 a
        refine ⟨?_, ?_, hids.trans hids2, ?_⟩
        · rw [hp, hf2]
        · rw [ht, hf2]
        · intro k
          rw [hsym k, drop_take_succ table i n e hi]
          simp only [hso]
          rw [hf2]
          simp only [push_back_at_getElem?, Option.map_map]
          cases hk : f._sections[k]? with
          | none => simp
          | some S =>
            simp only [Option.map_some', Function.comp, Option.some.injEq]
            by_cases hke : k = section_of f._sections e
            · subst hke
              simp [Section.push_back, List.filter_cons]
            · have hne : (section_of f._sections e == k) = false := by
                simpa using fun h => hke h.symm
              simp [hke, List.filter_cons, hne]

/-- A run of the symbol loop that stays inside the table and meets an entry without a
matching section throws `WrongFormat`. -/
theorem symbol_loop_error (table : List asymbol) :
    ∀ (n i : Nat) (f : File), i + n ≤ table.length →
      (∃ e ∈ (table.drop i).take n, section_of f._sections e = f._sections.length) →
      symbol_loop table n i f = .error Exception.WrongFormat := by
  intro n
  induction n with
  | zero =>
    intro i f _ h
    simp at h
  | succ n ih =>
    intro i f hlen h
    have hi : i < table.length := by omega
    have hget : table[i]? = some table[i] := List.getElem?_eq_getElem hi
    obtain ⟨e, he, hbad⟩ := h
    rw [drop_take_succ table i n _ hget] at he
    simp only [symbol_loop, hget]
    by_cases h0 : section_of f._sections table[i] = f._sections.length
    · rw [bind_symbol_error h0]
    · rw [bind_symbol_of_lt h0]
      simp only
      apply ih (i + 1) _ (by omega)
      have he1 : e ∈ (table.drop (i + 1)).take n := by
        rcases List.mem_cons.mp he with h1 | h1
        · subst h1; exact absurd hbad h0
        · exact h1
      refine ⟨e, he1, ?_⟩
      simp only [push_back_at_length]
      rw [section_of_congr (push_back_at_ids _ _ _) e]
      exact hbad

theorem push_back_at_total (secs : List Section) (k : Nat) (y : Symbol)
    (hk : k < secs.length) :
    total_symbols (push_back_at secs k y) = total_symbols secs + 1 := by
  induction secs generalizing k with
  | nil => simp at hk
  | cons s rest ih =>
    cases k with
    | zero =>
      simp [push_back_at, total_symbols, Section.push_back]
      omega
    | succ k =>
      have hk1 : k < rest.length := by simpa using hk
      have := ih k hk1
      simp only [total_symbols, push_back_at, List.map_cons, List.sum_cons] at this ⊢
      omega

theorem symbol_loop_total (table : List asymbol) :
    ∀ (n i : Nat) (f f1 : File), symbol_loop table n i f = .ok f1 →
      total_symbols f1._sections = total_symbols f._sections + n := by
  intro n
  induction n with
  | zero =>
    intro i f f1 h
    simp only [symbol_loop, Except.ok.injEq] at h
    subst h
    rfl
  | succ n ih =>
    intro i f f1 h
    simp only [symbol_loop] at h
    cases hi : table[i]? with
    | none => simp [hi] at h
    | some e =>
      simp only [hi] at h
      cases hb : bind_symbol f e with
      | error x => simp [hb] at h
      | ok f2 =>
        simp only [hb] at h
        obtain ⟨hlt, hf2⟩ := bind_symbol_ok hb
        rw [ih (i + 1) f2 f1 h, hf2]
        simp only [push_back_at_total _ _ _ hlt]
        omega

/-! ## Lemmas on the whole constructor -/

/-- The two ways the constructor returns: at `storage_needed == 0`, or through the
symbol loop. -/
theorem ctor_ok_cases {std : bfd_std_sections} {fd : bfd} {path target : String} {f : File}
    (h : File.ctor std fd path target = .ok f) :
    (fd.symtab_upper_bound = 0 ∧ f = File.seed std fd path target) ∨
    (0 < fd.symtab_upper_bound ∧ 0 ≤ fd.symtab_count ∧
      symbol_loop fd.symtab fd.symtab_count.toNat 0
        { File.seed std fd path target with symbol_table := some fd.symtab } = .ok f) := by
  simp only [File.ctor, bfd_get_symtab_upper_bound, bfd_canonicalize_symtab, BFP_ASSERT] at h
  split at h
  · cases h
  · split at h
    · rename_i h0
      left
      cases h
      exact ⟨h0, rfl⟩
    · split at h
      · cases h
      · right
        refine ⟨by omega, by omega, h⟩

theorem ctor_ok_ids {std : bfd_std_sections} {fd : bfd} {path target : String} {f : File}
    (h : File.ctor std fd path target = .ok f) :
    f._sections.map Section._sec = std.com :: std.und :: std.abs :: std.ind :: fd.sections := by
  have hseed : (File.seed std fd path target)._sections.map Section._sec =
      std.com :: std.und :: std.abs :: std.ind :: fd.sections := by
    rw [seed_sections]
    simp [Section.ctor, Function.comp_def]
  rcases ctor_ok_cases h with ⟨_, hf⟩ | ⟨_, _, hloop⟩
  · rw [hf, hseed]
  · rw [(symbol_loop_ok _ _ _ _ _ hloop).2.2.1]
    exact hseed

theorem ctor_ok_frame {std : bfd_std_sections} {fd : bfd} {path target : String} {f : File}
    (h : File.ctor std fd path target = .ok f) :
    f._path = path ∧ f._target = target := by
  rcases ctor_ok_cases h with ⟨_, hf⟩ | ⟨_, _, hloop⟩
  · rw [hf]; exact seed_frame std fd path target
  · obtain ⟨hp, ht, _⟩ := symbol_loop_ok _ _ _ _ _ hloop
    rw [hp, ht]
    exact seed_frame std fd path target

theorem seed_symbols_nil (std : bfd_std_sections) (fd : bfd) (path target : String)
    (S : Section) (hS : S ∈ (File.seed std fd path target)._sections) : S._symbols = [] := by
  rw [seed_sections] at hS
  simp only [List.mem_cons, List.mem_map] at hS
  rcases hS with h | h | h | h | ⟨a, _, h⟩ <;> (subst h; rfl)

/-- The symbol sequences of a constructed File: with `tbl` the entries the constructor
read (none at `storage_needed == 0`, else the first `number_of_symbols` of the table),
section `k` holds, in table order, one Symbol per entry of `tbl` whose iterator is `k`. -/
theorem ctor_ok_symbols {std : bfd_std_sections} {fd : bfd} {path target : String} {f : File}
    (h : File.ctor std fd path target = .ok f) :
    ∃ tbl : List asymbol, (fd.symtab_upper_bound = 0 → tbl = []) ∧
      (0 < fd.symtab_upper_bound → tbl = fd.symtab.take fd.symtab_count.toNat) ∧
      ∀ k S, f._sections[k]? = some S →
        S._symbols = (tbl.filter (fun e => section_of f._sections e == k)).map
          (fun e => ({ _sym := e, _section := k } : Symbol)) := by
  rcases ctor_ok_cases h with ⟨h0, hf⟩ | ⟨hpos, _, hloop⟩
  · refine ⟨[], fun _ => rfl, fun hp => by omega, ?_⟩
    intro k S hS
    rw [hf] at hS
    simpa using seed_symbols_nil std fd path target S (List.getElem?_mem hS)
  · refine ⟨fd.symtab.take fd.symtab_count.toNat, fun h0 => by omega, fun _ => rfl, ?_⟩
    obtain ⟨_, _, hids, hsym⟩ := symbol_loop_ok _ _ _ _ _ hloop
    intro k S hS
    have hk := hsym k
    simp only [hS, Option.map_some', List.drop_zero] at hk
    have hso : ∀ a, section_of (File.seed std fd path target)._sections a =
        section_of f._sections a := fun a => section_of_congr hids.symm a
    cases hk0 : (File.seed std fd path target)._sections[k]? with
    | none => simp [hk0] at hk
    | some S0 =>
      simp only [hk0, Option.map_some', Option.some.injEq] at hk
      rw [hk, seed_symbols_nil std fd path target S0 (List.getElem?_mem hk0)]
      simp only [hso, List.nil_append]

theorem total_symbols_eq_zero (secs : List Section) (h : ∀ S ∈ secs, S._symbols = []) :
    total_symbols secs = 0 := by
  induction secs with
  | nil => rfl
  | cons s rest ih =>
    have hs : s._symbols = [] := h s (List.mem_cons_self _ _)
    have hr : total_symbols rest = 0 := ih (fun S hS => h S (List.mem_cons_of_mem _ hS))
    simp only [total_symbols, List.map_cons, List.sum_cons] at hr ⊢
    rw [hr, hs]
    rfl

/-- On a consistent library answer, the entries a returning constructor has read are the
whole table, none was left unmatched, and the sections hold as many Symbols as the table
has entries. -/
theorem ctor_ok_consistent {std : bfd_std_sections} {fd : bfd} {path target : String}
    {f : File} (h : File.ctor std fd path target = .ok f) (hc : fd.consistent) :
    (∀ e ∈ fd.symtab, section_of f._sections e < f._sections.length) ∧
      (∀ k S, f._sections[k]? = some S →
        S._symbols = (fd.symtab.filter (fun e => section_of f._sections e == k)).map
          (fun e => ({ _sym := e, _section := k } : Symbol))) ∧
      total_symbols f._sections = fd.symtab.length := by
  obtain ⟨hcount, hub⟩ := hc
  obtain ⟨tbl, h0, hpos, hsym⟩ := ctor_ok_symbols h
  rcases ctor_ok_cases h with ⟨hz, hf⟩ | ⟨hp, hnn, hloop⟩
  · have hnil : fd.symtab = [] := List.length_eq_zero.mp (by omega)
    refine ⟨by simp [hnil], ?_, ?_⟩
    · intro k S hS
      rw [hsym k S hS, h0 hz, hnil]
    · rw [hnil, hf]
      exact total_symbols_eq_zero _ (seed_symbols_nil std fd path target)
  · have hn : fd.symtab_count.toNat = fd.symtab.length := by omega
    have htbl : tbl = fd.symtab := by
      rw [hpos hp, hn, List.take_length]
    refine ⟨?_, ?_, ?_⟩
    · intro e he
      obtain ⟨_, _, hids, _⟩ := symbol_loop_ok _ _ _ _ _ hloop
      have hle := section_of_le f._sections e
      rcases Nat.lt_or_ge (section_of f._sections e) f._sections.length with hlt | hge
      · exact hlt
      · exfalso
        have hlen : f._sections.length = (File.seed std fd path target)._sections.length := by
          simpa using congrArg List.length hids
        have hbad : section_of (File.seed std fd path target)._sections e =
            (File.seed std fd path target)._sections.length := by
          rw [← section_of_congr hids e]
          omega
        have herr := symbol_loop_error fd.symtab fd.symtab_count.toNat 0
          { File.seed std fd path target with symbol_table := some fd.symtab } (by omega)
          ⟨e, by simpa [hn] using he, hbad⟩
        rw [herr] at hloop
        cases hloop
    · intro k S hS
      rw [hsym k S hS, htbl]
    · rw [symbol_loop_total _ _ _ _ _ hloop, hn]
      have : total_symbols (File.seed std fd path target)._sections = 0 :=
        total_symbols_eq_zero _ (seed_symbols_nil std fd path target)
      simp only [this]
      omega

/-! ## The claims on `File::File` -/

/-- C1: whenever construction of a File succeeds, the section sequence has at least four
entries, entries 0, 1, 2, 3 wrap the common, undefined, absolute and indirect
pseudo-sections in that order, and the real sections are what follows them. -/
theorem C1_pseudo_sections_first (std : bfd_std_sections) (fd : bfd) (path target : String)
    (f : File) (h : File.ctor std fd path target = .ok f) :
    4 ≤ f.size ∧
      (f._sections[0]?).map Section._sec = some std.com ∧
      (f._sections[1]?).map Section._sec = some std.und ∧
      (f._sections[2]?).map Section._sec = some std.abs ∧
      (f._sections[3]?).map Section._sec = some std.ind ∧
      (f._sections.drop 4).map Section._sec = fd.sections := by
  have hids := ctor_ok_ids h
  have hlen : f._sections.length = 4 + fd.sections.length := by
    have := congrArg List.length hids
    simp only [List.length_map, List.length_cons] at this
    omega
  have hget : ∀ j : Nat, (f._sections[j]?).map Section._sec =
      (std.com :: std.und :: std.abs :: std.ind :: fd.sections)[j]? := by
    intro j
    rw [← hids, List.getElem?_map]
  refine ⟨by simp only [File.size]; omega, ?_, ?_, ?_, ?_, ?_⟩
  · rw [hget]; simp
  · rw [hget]; simp
  · rw [hget]; simp
  · rw [hget]; simp
  · rw [List.map_drop, hids]; simp

theorem C1_witness :
    File.ctor example_std example_fd "a.out" "elf64-x86-64" = .ok example_file ∧
      4 ≤ example_file.size ∧
      (example_file._sections[0]?).map Section._sec = some 1 ∧
      (example_file._sections[1]?).map Section._sec = some 2 ∧
      (example_file._sections[2]?).map Section._sec = some 3 ∧
      (example_file._sections[3]?).map Section._sec = some 4 ∧
      (example_file._sections.drop 4).map Section._sec = [10, 11] :=
  ⟨by rfl, C1_pseudo_sections_first example_std example_fd "a.out" "elf64-x86-64"
    example_file (by rfl)⟩

/-- C2: when the library's symbol table (the count it returns being the number of entries,
within the upper bound it announced) contains an entry whose section pointer is null or
equals no section of the sequence, pseudo-sections included, construction throws
`WrongFormat` and returns no File, wherever in the table that entry stands. -/
theorem C2_unmatched_symbol_fails (std : bfd_std_sections) (fd : bfd) (path target : String)
    (hc : fd.consistent) (e : asymbol) (he : e ∈ fd.symtab)
    (hbad : e.sec = none ∨
      ∀ p ∈ std.com :: std.und :: std.abs :: std.ind :: fd.sections, e.sec ≠ some p) :
    File.ctor std fd path target = .error Exception.WrongFormat := by
  obtain ⟨hcount, hub⟩ := hc
  have hpos : 0 < fd.symtab.length := List.length_pos_of_mem he
  have h1 : ¬ fd.symtab_upper_bound < 0 := by omega
  have h2 : ¬ fd.symtab_upper_bound = 0 := by omega
  have h3 : ¬ fd.symtab_count < 0 := by omega
  have hn : fd.symtab_count.toNat = fd.symtab.length := by omega
  simp only [File.ctor, bfd_get_symtab_upper_bound, bfd_canonicalize_symtab, h1, h2, h3,
    if_false, hn]
  apply symbol_loop_error _ _ _ _ (by omega)
  refine ⟨e, by simpa using he, ?_⟩
  show section_of (File.seed std fd path target)._sections e = _
  rw [section_of_eq_length_iff]
  rcases hbad with hnone | hno
  · exact Or.inl hnone
  · right
    intro S hS
    apply hno
    have hids : (File.seed std fd path target)._sections.map Section._sec =
        std.com :: std.und :: std.abs :: std.ind :: fd.sections := by
      rw [seed_sections]
      simp [Section.ctor, Function.comp_def]
    rw [← hids]
    exact List.mem_map_of_mem _ hS

theorem C2_witness :
    example_fd_unmatched.consistent ∧
      example_sym "stray" (some 99) ∈ example_fd_unmatched.symtab ∧
      File.ctor example_std example_fd_unmatched "a.out" "elf64-x86-64" =
        .error Exception.WrongFormat :=
  ⟨by decide, by decide,
    C2_unmatched_symbol_fails example_std example_fd_unmatched "a.out" "elf64-x86-64"
      (by decide) (example_sym "stray" (some 99)) (by decide) (by decide)⟩

/-- C3: in a successfully constructed File, every Symbol stored in the section at position
`k` has a back-reference `_section` that resolves, in that File's section sequence, to
that same section (so `_section = k`), and the section wraps the raw section the
Symbol's table entry points at. -/
theorem C3_symbol_back_reference (std : bfd_std_sections) (fd : bfd) (path target : String)
    (f : File) (h : File.ctor std fd path target = .ok f)
    (k : Nat) (S : Section) (y : Symbol)
    (hS : f._sections[k]? = some S) (hy : y ∈ S._symbols) :
    f._sections[y._section]? = some S ∧ y._section = k ∧
      y._sym ∈ fd.symtab ∧ y._sym.sec = some S._sec := by
  obtain ⟨tbl, h0, hpos, hsym⟩ := ctor_ok_symbols h
  have htbl : ∀ a ∈ tbl, a ∈ fd.symtab := by
    intro a ha
    rcases ctor_ok_cases h with ⟨hz, _⟩ | ⟨hp, _, _⟩
    · rw [h0 hz] at ha; simp at ha
    · rw [hpos hp] at ha; exact List.mem_of_mem_take ha
  rw [hsym k S hS] at hy
  simp only [List.mem_map, List.mem_filter, beq_iff_eq] at hy
  obtain ⟨e, ⟨he, hek⟩, rfl⟩ := hy
  refine ⟨hS, rfl, htbl e he, ?_⟩
  have hk : k < f._sections.length := (List.getElem?_eq_some.mp hS).1
  show e.sec = some S._sec
  unfold section_of at hek
  cases hsec : e.sec with
  | none => simp only [hsec] at hek; omega
  | some p =>
    simp only [hsec] at hek
    obtain ⟨⟨T, hT, hTp⟩, _⟩ := find_spec f._sections p k hek hk
    rw [hS] at hT
    cases hT
    rw [hTp]

theorem C3_witness :
    File.ctor example_std example_fd "a.out" "elf64-x86-64" = .ok example_file ∧
      example_file._sections[5]? = some example_text ∧
      example_helper ∈ example_text._symbols ∧
      example_file._sections[example_helper._section]? = some example_text ∧
      example_helper._section = 5 ∧
      example_helper._sym ∈ example_fd.symtab ∧
      example_helper._sym.sec = some example_text._sec :=
  ⟨by rfl, by rfl, by decide,
    C3_symbol_back_reference example_std example_fd "a.out" "elf64-x86-64" example_file
      (by rfl) 5 example_text example_helper (by rfl) (by decide)⟩

/-- C4: when the library reports a negative storage upper bound, or (the bound being
positive, so that canonicalisation is called) a negative symbol count, construction throws
and returns no File, although the section sequence already held the four pseudo-sections
and every raw section. -/
theorem C4_negative_table_size_fails (std : bfd_std_sections) (fd : bfd)
    (path target : String)
    (h : bfd_get_symtab_upper_bound fd < 0 ∨
      (0 < bfd_get_symtab_upper_bound fd ∧ (bfd_canonicalize_symtab fd).2 < 0)) :
    File.ctor std fd path target = .error Exception.Assert ∧
      (File.seed std fd path target).size = 4 + fd.sections.length := by
  constructor
  · simp only [bfd_get_symtab_upper_bound, bfd_canonicalize_symtab] at h
    rcases h with h | ⟨h1, h2⟩
    · simp [File.ctor, bfd_get_symtab_upper_bound, BFP_ASSERT, h]
    · have h3 : ¬ fd.symtab_upper_bound < 0 := by omega
      have h4 : ¬ fd.symtab_upper_bound = 0 := by omega
      simp [File.ctor, bfd_get_symtab_upper_bound, bfd_canonicalize_symtab, BFP_ASSERT,
        h2, h3, h4]
  · simp only [File.size, seed_sections, List.length_cons, List.length_map]
    omega

theorem C4_witness :
    bfd_get_symtab_upper_bound example_fd_negative_bound < 0 ∧
      File.ctor example_std example_fd_negative_bound "a.out" "elf64-x86-64" =
        .error Exception.Assert ∧
      (File.seed example_std example_fd_negative_bound "a.out" "elf64-x86-64").size =
        4 + example_fd_negative_bound.sections.length :=
  ⟨by decide,
    C4_negative_table_size_fails example_std example_fd_negative_bound "a.out"
      "elf64-x86-64" (Or.inl (by decide))⟩

/-- C5: a successfully constructed File has `size() = 4 + n` for the `n` raw sections the
library lists, and for every `i < n` the section at position `4 + i` wraps the raw
section `r_i`: one Section per raw section, in the library's order. -/
theorem C5_one_section_per_raw_section (std : bfd_std_sections) (fd : bfd)
    (path target : String) (f : File) (h : File.ctor std fd path target = .ok f) :
    f.size = 4 + fd.sections.length ∧
      ∀ (i r : Nat), fd.sections[i]? = some r →
        ∃ S, f._sections[4 + i]? = some S ∧ S._sec = r := by
  have hids := ctor_ok_ids h
  constructor
  · have := congrArg List.length hids
    simp only [List.length_map, List.length_cons] at this
    simp only [File.size]
    omega
  · intro i r hr
    have hget : (f._sections[4 + i]?).map Section._sec = some r := by
      rw [← List.getElem?_map, hids, Nat.add_comm]
      simpa using hr
    cases hS : f._sections[4 + i]? with
    | none => simp [hS] at hget
    | some S =>
      refine ⟨S, rfl, ?_⟩
      simpa [hS] using hget

theorem C5_witness :
    File.ctor example_std example_fd "a.out" "elf64-x86-64" = .ok example_file ∧
      example_file.size = 4 + example_fd.sections.length ∧
      ∀ (i r : Nat), example_fd.sections[i]? = some r →
        ∃ S, example_file._sections[4 + i]? = some S ∧ S._sec = r :=
  ⟨by rfl, C5_one_section_per_raw_section example_std example_fd "a.out" "elf64-x86-64"
    example_file (by rfl)⟩

/-- C6: when construction succeeds on the library's symbol table (the count it returns
being the number of entries, within the announced upper bound), every table entry has a
first section of the sequence wrapping the raw section it points at, that section is the
one its iterator `section_of` designates, the section at each position `k` holds, in
symbol-table order, exactly the entries whose iterator is `k`, and the sections together
hold as many Symbols as the table has entries. -/
theorem C6_each_entry_bound_once (std : bfd_std_sections) (fd : bfd) (path target : String)
    (f : File) (h : File.ctor std fd path target = .ok f) (hc : fd.consistent) :
    (∀ e ∈ fd.symtab, ∃ (k : Nat) (S : Section) (p : Nat),
        f._sections[k]? = some S ∧ e.sec = some p ∧ S._sec = p ∧
        (∀ (j : Nat) (T : Section), j < k → f._sections[j]? = some T → T._sec ≠ p) ∧
        section_of f._sections e = k) ∧
      (∀ (k : Nat) (S : Section), f._sections[k]? = some S →
        S._symbols.map Symbol._sym =
          fd.symtab.filter (fun e => section_of f._sections e == k)) ∧
      (f._sections.map (fun S => S._symbols.length)).sum = fd.symtab.length := by
  obtain ⟨hlt, hsym, htot⟩ := ctor_ok_consistent h hc
  refine ⟨?_, ?_, htot⟩
  · intro e he
    have hk := hlt e he
    cases hsec : e.sec with
    | none =>
      simp only [section_of, hsec] at hk
      omega
    | some p =>
      have hfind : find f._sections p = section_of f._sections e := by
        simp only [section_of, hsec]
      obtain ⟨⟨S, hS, hSp⟩, hmin⟩ := find_spec f._sections p _ hfind hk
      exact ⟨section_of f._sections e, S, p, hS, rfl, hSp, hmin, rfl⟩
  · intro k S hS
    rw [hsym k S hS, List.map_map]
    simp [Function.comp_def]

theorem C6_witness :
    File.ctor example_std example_fd "a.out" "elf64-x86-64" = .ok example_file ∧
      example_fd.consistent ∧
      (∀ e ∈ example_fd.symtab, ∃ (k : Nat) (S : Section) (p : Nat),
        example_file._sections[k]? = some S ∧ e.sec = some p ∧ S._sec = p ∧
        (∀ (j : Nat) (T : Section), j < k → example_file._sections[j]? = some T →
          T._sec ≠ p) ∧
        section_of example_file._sections e = k) ∧
      (∀ (k : Nat) (S : Section), example_file._sections[k]? = some S →
        S._symbols.map Symbol._sym =
          example_fd.symtab.filter (fun e => section_of example_file._sections e == k)) ∧
      (example_file._sections.map (fun S => S._symbols.length)).sum =
        example_fd.symtab.length :=
  ⟨by rfl, by decide,
    C6_each_entry_bound_once example_std example_fd "a.out" "elf64-x86-64" example_file
      (by rfl) (by decide)⟩

/-- C7: a File constructed with path `p` and target `t` returns `p` from `get_path()` and
`t` from `get_target()`; `push_back` and the binding of a symbol leave both unchanged. -/
theorem C7_path_and_target_kept (std : bfd_std_sections) (fd : bfd) (path target : String)
    (f : File) (h : File.ctor std fd path target = .ok f) :
    f.get_path = path ∧ f.get_target = target ∧
      (∀ (g : File) (s : Section),
        (g.push_back s).get_path = g.get_path ∧ (g.push_back s).get_target = g.get_target) ∧
      (∀ (g g1 : File) (e : asymbol), bind_symbol g e = .ok g1 →
        g1.get_path = g.get_path ∧ g1.get_target = g.get_target) := by
  obtain ⟨hp, ht⟩ := ctor_ok_frame h
  refine ⟨hp, ht, fun g s => ⟨rfl, rfl⟩, ?_⟩
  intro g g1 e hb
  rw [(bind_symbol_ok hb).2]
  exact ⟨rfl, rfl⟩

theorem C7_witness :
    File.ctor example_std example_fd "a.out" "elf64-x86-64" = .ok example_file ∧
      example_file.get_path = "a.out" ∧ example_file.get_target = "elf64-x86-64" ∧
      (∀ (g : File) (s : Section),
        (g.push_back s).get_path = g.get_path ∧ (g.push_back s).get_target = g.get_target) ∧
      (∀ (g g1 : File) (e : asymbol), bind_symbol g e = .ok g1 →
        g1.get_path = g.get_path ∧ g1.get_target = g.get_target) :=
  ⟨by rfl, C7_path_and_target_kept example_std example_fd "a.out" "elf64-x86-64"
    example_file (by rfl)⟩

/-- C10: when the library reports a symbol-table storage size of exactly 0, construction
returns a File without reading the table (`symbol_table` is never assigned): its section
sequence is the four pseudo-sections followed by one Section per raw section, and every
section's symbol sequence is empty. -/
theorem C10_zero_storage_succeeds (std : bfd_std_sections) (fd : bfd) (path target : String)
    (h : bfd_get_symtab_upper_bound fd = 0) :
    ∃ f, File.ctor std fd path target = .ok f ∧ f.symbol_table = none ∧
      f._sections =
        [Section.ctor std.com, Section.ctor std.und, Section.ctor std.abs,
          Section.ctor std.ind] ++ fd.sections.map Section.ctor ∧
      ∀ S ∈ f._sections, S._symbols = [] := by
  refine ⟨File.seed std fd path target, ?_, ?_, ?_, ?_⟩
  · simp [File.ctor, h]
  · simp only [File.seed]
    rw [(foldl_push_back_frame _ _).2.2]
    rfl
  · rw [seed_sections]; rfl
  · exact seed_symbols_nil std fd path target

theorem C10_witness :
    bfd_get_symtab_upper_bound example_fd_no_storage = 0 ∧
      ∃ f, File.ctor example_std example_fd_no_storage "a.out" "elf64-x86-64" = .ok f ∧
        f.symbol_table = none ∧
        f._sections =
          [Section.ctor 1, Section.ctor 2, Section.ctor 3, Section.ctor 4] ++
            [Section.ctor 10, Section.ctor 11] ∧
        ∀ S ∈ f._sections, S._symbols = [] :=
  ⟨by rfl, C10_zero_storage_succeeds example_std example_fd_no_storage "a.out"
    "elf64-x86-64" (by rfl)⟩

/-- C11: on every successfully constructed File, whatever the raw section list (the empty
one included), `empty()` is false; `front()` is the section at position 0, the common
pseudo-section; for every `i < size()`, `at(i)` returns a section and `operator[](i)` is
that same section; for every `i >= size()`, `at(i)` throws `std::out_of_range`; `back()`
is the section at the last position `size() - 1`, with the symbols bound to it, and it
wraps the last raw section, or the indirect pseudo-section when there is no raw section. -/
theorem C11_vector_accessors (std : bfd_std_sections) (fd : bfd) (path target : String)
    (f : File) (h : File.ctor std fd path target = .ok f) :
    f.empty = false ∧
      (∃ S, f.front = some S ∧ f.operator_index 0 = some S ∧ S._sec = std.com) ∧
      (∀ i : Nat, i < f.size → ∃ S, f.at_ i = .ok S ∧ f.operator_index i = some S) ∧
      (∀ i : Nat, f.size ≤ i → f.at_ i = .error std_exception.out_of_range) ∧
      (∃ S, f.back = some S ∧ f.operator_index (f.size - 1) = some S ∧
        f.at_ (3 + fd.sections.length) = .ok S ∧
        (fd.sections = [] → S._sec = std.ind) ∧
        (∀ r : Nat, fd.sections.getLast? = some r → S._sec = r)) := by
  have hids := ctor_ok_ids h
  have hlen : f._sections.length = 4 + fd.sections.length := by
    have := congrArg List.length hids
    simp only [List.length_map, List.length_cons] at this
    omega
  refine ⟨?_, ?_, ?_, ?_, ?_⟩
  · cases hs : f._sections with
    | nil => rw [hs] at hids; simp at hids
    | cons S rest => simp [File.empty, hs]
  · cases hs : f._sections with
    | nil => rw [hs] at hids; simp at hids
    | cons S rest =>
      rw [hs] at hids
      simp only [List.map_cons, List.cons.injEq] at hids
      exact ⟨S, by simp [File.front, hs], by simp [File.operator_index, hs], hids.1⟩
  · intro i hi
    have hi1 : i < f._sections.length := hi
    refine ⟨f._sections.get ⟨i, hi1⟩, ?_, ?_⟩
    · simp only [File.at_, hi1, dif_pos]
    · simp only [File.operator_index]
      exact List.getElem?_eq_getElem hi1
  · intro i hi
    have hi1 : ¬ i < f._sections.length := by
      simp only [File.size] at hi
      omega
    simp only [File.at_, hi1, dif_neg, not_false_eq_true]
  · have hlast : (f._sections.getLast?).map Section._sec =
        (std.com :: std.und :: std.abs :: std.ind :: fd.sections).getLast? := by
      rw [← hids, List.getLast?_map]
    have hpos : f._sections.getLast? = f._sections[f._sections.length - 1]? :=
      List.getLast?_eq_getElem? f._sections
    cases hb : f._sections.getLast? with
    | none =>
      have hnil : f._sections = [] := List.getLast?_eq_none_iff.mp hb
      rw [hnil] at hids
      simp at hids
    | some S =>
      rw [hb] at hlast
      have hidx : f._sections[f._sections.length - 1]? = some S := by
        rw [← hpos, hb]
      refine ⟨S, hb, hidx, ?_, ?_, ?_⟩
      · have hlt : 3 + fd.sections.length < f._sections.length := by omega
        have hsame : f._sections.length - 1 = 3 + fd.sections.length := by omega
        rw [hsame] at hidx
        obtain ⟨_, hget⟩ := List.getElem?_eq_some.mp hidx
        simp only [File.at_, hlt, dif_pos, Except.ok.injEq]
        exact hget
      · intro hnil
        rw [hnil] at hlast
        simpa using hlast
      · intro r hr
        cases hsec : fd.sections with
        | nil => rw [hsec] at hr; simp at hr
        | cons a rest =>
          rw [hsec] at hlast hr
          simp only [List.getLast?_cons_cons, Option.map_some'] at hlast
          rw [hr] at hlast
          simpa using hlast

theorem C11_witness :
    (File.ctor example_std example_fd "a.out" "elf64-x86-64" = .ok example_file ∧
      example_fd.sections.getLast? = some 11 ∧
      example_file.back = some example_text ∧
      example_file.empty = false ∧
      (∃ S, example_file.front = some S ∧ example_file.operator_index 0 = some S ∧
        S._sec = 1) ∧
      (∀ i : Nat, i < example_file.size →
        ∃ S, example_file.at_ i = .ok S ∧ example_file.operator_index i = some S) ∧
      (∀ i : Nat, example_file.size ≤ i →
        example_file.at_ i = .error std_exception.out_of_range) ∧
      (∃ S, example_file.back = some S ∧
        example_file.operator_index (example_file.size - 1) = some S ∧
        example_file.at_ (3 + example_fd.sections.length) = .ok S ∧
        (example_fd.sections = [] → S._sec = 4) ∧
        (∀ r : Nat, example_fd.sections.getLast? = some r → S._sec = r))) ∧
    (File.ctor example_std example_fd_no_sections "a.out" "elf64-x86-64" =
        .ok example_file_no_sections ∧
      example_file_no_sections.empty = false ∧
      (∃ S, example_file_no_sections.front = some S ∧
        example_file_no_sections.operator_index 0 = some S ∧ S._sec = 1) ∧
      (∀ i : Nat, i < example_file_no_sections.size →
        ∃ S, example_file_no_sections.at_ i = .ok S ∧
          example_file_no_sections.operator_index i = some S) ∧
      (∀ i : Nat, example_file_no_sections.size ≤ i →
        example_file_no_sections.at_ i = .error std_exception.out_of_range) ∧
      (∃ S, example_file_no_sections.back = some S ∧
        example_file_no_sections.operator_index (example_file_no_sections.size - 1) =
          some S ∧
        example_file_no_sections.at_ (3 + example_fd_no_sections.sections.length) =
          .ok S ∧
        (example_fd_no_sections.sections = [] → S._sec = 4) ∧
        (∀ r : Nat, example_fd_no_sections.sections.getLast? = some r → S._sec = r))) :=
  ⟨⟨by rfl, by rfl, by rfl,
      C11_vector_accessors example_std example_fd "a.out" "elf64-x86-64" example_file
        (by rfl)⟩,
    ⟨by rfl,
      C11_vector_accessors example_std example_fd_no_sections "a.out" "elf64-x86-64"
        example_file_no_sections (by rfl)⟩⟩

end bfp

namespace befa

/-! ## Basic-block segmentation -/

theorem init_ok : Aggregator.init.ok := by
  simp [Aggregator.ok, Aggregator.init, address_contiguous]

theorem emit_ok (a : Aggregator) (h : a.ok) : a.emit.ok := by
  unfold Aggregator.emit
  cases hacc : a.accumulating with
  | nil => exact h
  | cons i rest =>
    refine ⟨List.chain'_nil, ?_⟩
    intro b hb
    rcases List.mem_append.mp hb with hb | hb
    · exact h.2 b hb
    · simp only [List.mem_singleton] at hb
      subst hb
      simpa [hacc] using h.1

theorem emit_accumulating (a : Aggregator) : a.emit.accumulating = [] := by
  unfold Aggregator.emit
  cases hacc : a.accumulating with
  | nil => exact hacc
  | cons i rest => rfl

theorem on_instruction_ok (a : Aggregator) (i : Instruction) (h : a.ok) :
    (a.on_instruction i).ok := by
  have key : ∀ a1 : Aggregator, a1.ok →
      (∀ prev ∈ a1.accumulating.getLast?, i.address = prev.address + prev.length) →
      (if i.control_transfer then
        ({ a1 with accumulating := a1.accumulating ++ [i] } : Aggregator).emit
       else { a1 with accumulating := a1.accumulating ++ [i] }).ok := by
    intro a1 h1 hlast
    have hok : ({ a1 with accumulating := a1.accumulating ++ [i] } : Aggregator).ok := by
      refine ⟨?_, h1.2⟩
      apply List.Chain'.append h1.1 (List.chain'_singleton i)
      intro x hx y hy
      simp only [List.head?_cons, Option.mem_def, Option.some.injEq] at hy
      subst hy
      exact hlast x hx
    split
    · exact emit_ok _ hok
    · exact hok
  unfold Aggregator.on_instruction
  cases hl : a.accumulating.getLast? with
  | none =>
    apply key a h
    intro prev hprev
    simp [hl] at hprev
  | some prev =>
    simp only
    by_cases hc : continues prev i = true
    · simp only [hc, if_true]
      apply key a h
      intro p hp
      simp only [hl, Option.mem_def, Option.some.injEq] at hp
      subst hp
      simp only [continues, Bool.and_eq_true, beq_iff_eq] at hc
      exact hc.2
    · simp only [hc]
      apply key a.emit (emit_ok a h)
      intro p hp
      simp [emit_accumulating] at hp

theorem foldl_on_instruction_ok (stream : List Instruction) :
    ∀ a : Aggregator, a.ok → (stream.foldl Aggregator.on_instruction a).ok := by
  induction stream with
  | nil => intro a h; exact h
  | cons i rest ih => intro a h; exact ih _ (on_instruction_ok a i h)

theorem address_contiguous_getElem? (l : List Instruction) (h : address_contiguous l) :
    ∀ (n : Nat) (i j : Instruction), l[n]? = some i → l[n + 1]? = some j →
      j.address = i.address + i.length := by
  induction l with
  | nil => intro n i j hi; simp at hi
  | cons a rest ih =>
    intro n i j hi hj
    cases n with
    | zero =>
      simp only [List.getElem?_cons_zero, Option.some.injEq] at hi
      subst hi
      cases rest with
      | nil => simp at hj
      | cons b rest1 =>
        simp only [zero_add, List.getElem?_cons_succ, List.getElem?_cons_zero,
          Option.some.injEq] at hj
        subst hj
        exact (List.chain'_cons.mp h).1
    | succ n =>
      simp only [List.getElem?_cons_succ] at hi hj
      exact ih (List.Chain'.tail h) n i j hi hj

/-- C8: in every BasicBlock published on the basic-block stream, each instruction starts
where the one before it ends: for adjacent instructions `i`, `j` of the block,
`j.address = i.address + i.length`. -/
theorem C8_basic_blocks_address_contiguous (stream : List Instruction) (b : BasicBlock)
    (hb : b ∈ basic_block_stream stream) (n : Nat) (i j : Instruction)
    (hi : b.instructions[n]? = some i) (hj : b.instructions[n + 1]? = some j) :
    j.address = i.address + i.length := by
  have hok := emit_ok _ (foldl_on_instruction_ok stream Aggregator.init init_ok)
  exact address_contiguous_getElem? b.instructions (hok.2 b hb) n i j hi hj

theorem C8_witness :
    example_block ∈ basic_block_stream example_stream ∧
      example_block.instructions[0]? = some example_stream[2] ∧
      example_block.instructions[1]? = some example_stream[3] ∧
      example_stream[3].address = example_stream[2].address + example_stream[2].length :=
  ⟨by decide, by rfl, by rfl,
    C8_basic_blocks_address_contiguous example_stream example_block (by decide) 0
      example_stream[2] example_stream[3] (by rfl) (by rfl)⟩

/-! ## Event bus -/

theorem dispatch_spec {σ α : Type} (value : α) :
    ∀ (hs : List (Nat × Handler σ α)) (acc : Published σ α),
      (Subject.dispatch value hs acc).invoked =
          acc.invoked ++ hs.map (fun h => (h.1, value)) ∧
        (Subject.dispatch value hs acc).state =
          hs.foldl (fun st h => (h.2 value st).1) acc.state := by
  intro hs
  induction hs with
  | nil => intro acc; simp [Subject.dispatch]
  | cons h rest ih =>
    intro acc
    obtain ⟨token, run⟩ := h
    simp only [Subject.dispatch]
    obtain ⟨h1, h2⟩ := ih
      { subject := (run value acc.state).2.foldl Subject.unsubscribe acc.subject,
        state := (run value acc.state).1,
        invoked := acc.invoked ++ [(token, value)] }
    exact ⟨by rw [h1]; simp, by rw [h2]; simp⟩

theorem subscribe_all_spec {σ α : Type} (hs : List (Handler σ α)) :
    ∀ s : Subject σ α,
      (s.subscribe_all hs).handlers = s.handlers ++ hs.enumFrom s.next_token ∧
        (s.subscribe_all hs).next_token = s.next_token + hs.length := by
  induction hs with
  | nil => intro s; simp [Subject.subscribe_all]
  | cons h rest ih =>
    intro s
    obtain ⟨h1, h2⟩ := ih (s.subscribe h).1
    simp only [Subject.subscribe_all, List.foldl_cons] at h1 h2 ⊢
    rw [h1, h2]
    simp [Subject.subscribe, List.enumFrom_cons]
    omega

theorem enumFrom_foldl_snd {β γ : Type} (f : γ → β → γ) (l : List β) :
    ∀ (n : Nat) (c : γ), (l.enumFrom n).foldl (fun acc h => f acc h.2) c = l.foldl f c := by
  induction l with
  | nil => intro n c; rfl
  | cons b rest ih => intro n c; simp only [List.enumFrom_cons, List.foldl_cons]; exact ih _ _

theorem enumFrom_map_fst_pair {β γ : Type} (v : γ) (l : List β) :
    ∀ n : Nat, (l.enumFrom n).map (fun h => (h.1, v)) =
      (List.range' n l.length).map (fun i => (i, v)) := by
  induction l with
  | nil => intro n; rfl
  | cons b rest ih =>
    intro n
    simp only [List.enumFrom_cons, List.map_cons, List.length_cons, List.range'_succ, ih]

/-- C9: on a bus where `h_1, ..., h_k` were subscribed in that order, `publish(v)` makes
exactly `k` invocations, the `i`-th being handler `h_i` (token `i - 1`) handed `v`, and the
state `publish` returns is the one left by running `h_1, ..., h_k` on `v` in that order:
every registered handler runs once, in subscription order, before `publish` returns. The
same holds of any bus for the handlers registered when `publish` is called. -/
theorem C9_publish_invokes_in_subscription_order {σ α : Type} (hs : List (Handler σ α))
    (s : Subject σ α) (v : α) (st : σ) :
    ((Subject.empty σ α).subscribe_all hs).handlers.map Prod.snd = hs ∧
      ((((Subject.empty σ α).subscribe_all hs).publish v st).invoked =
        (List.range hs.length).map (fun i => (i, v))) ∧
      ((((Subject.empty σ α).subscribe_all hs).publish v st).state =
        hs.foldl (fun acc h => (h v acc).1) st) ∧
      (s.publish v st).invoked = s.handlers.map (fun h => (h.1, v)) ∧
      (s.publish v st).state = s.handlers.foldl (fun acc h => (h.2 v acc).1) st := by
  have hall := (subscribe_all_spec hs (Subject.empty σ α)).1
  simp only [Subject.empty, List.nil_append] at hall
  have hgen : ∀ b : Subject σ α,
      (b.publish v st).invoked = b.handlers.map (fun h => (h.1, v)) ∧
        (b.publish v st).state = b.handlers.foldl (fun acc h => (h.2 v acc).1) st := by
    intro b
    have := dispatch_spec v b.handlers { subject := b, state := st, invoked := [] }
    simpa [Subject.publish] using this
  refine ⟨?_, ?_, ?_, (hgen s).1, (hgen s).2⟩
  · simp only [Subject.empty]
    rw [hall]
    exact List.enumFrom_map_snd 0 hs
  · rw [(hgen _).1]
    simp only [Subject.empty]
    rw [hall, enumFrom_map_fst_pair, List.range_eq_range']
  · rw [(hgen _).2]
    simp only [Subject.empty]
    rw [hall]
    exact enumFrom_foldl_snd (fun acc h => (h v acc).1) hs 0 st

end befa
